import Mathlib

/-!
Shallow embedding of `RealtimeTTS/engines/style_engine.py` (class `StyleTTSEngine`)
and verification of its specified behaviour.

Tensors that the engine manipulates are rows of rational numbers (`List ℚ`);
a 2-D feature sequence is a list of frames, each frame a `List ℚ`.  Real-valued
activations that involve transcendental functions (the sigmoid in the duration
predictor) are modelled over `ℝ`.
-/

set_option autoImplicit false
set_option maxRecDepth 8000
set_option linter.unusedVariables false

/-! ### Style blending (`inference`, lines 283–288, and `compute_reference_style`, line 230)

`s_pred` is the 256-dimensional row produced by the diffusion sampler,
`ref_s` the 256-dimensional reference style row
(`torch.cat([style_encoder(..), predictor_encoder(..)], dim=1)`):
its first 128 coordinates come from the style (acoustic/timbre) encoder and
its last 128 from the predictor (prosody) encoder. -/

/-- `s = s_pred[:, 128:]` (line 283): the slice of the diffusion sample that the
predictor consumes (prosody component). -/
def s_slice (s_pred : List ℚ) : List ℚ := s_pred.drop 128

/-- `ref = s_pred[:, :128]` (line 284): the slice of the diffusion sample that the
decoder consumes (acoustic/timbre component). -/
def ref_slice (s_pred : List ℚ) : List ℚ := s_pred.take 128

/-- The reference timbre half `ref_s[:, :128]` (style-encoder output,
`compute_reference_style` line 230). -/
def reference_timbre (ref_s : List ℚ) : List ℚ := ref_s.take 128

/-- The reference prosody half `ref_s[:, 128:]` (predictor-encoder output,
`compute_reference_style` line 230). -/
def reference_prosody (ref_s : List ℚ) : List ℚ := ref_s.drop 128

/-- Elementwise affine interpolation `c * x + (1 - c) * y`, the tensor expression
`c * xs + (1 - c) * ys` of lines 287–288. -/
def blend (c : ℚ) (xs ys : List ℚ) : List ℚ :=
  List.zipWith (fun x y => c * x + (1 - c) * y) xs ys

/-- Line 287: `ref = alpha * ref + (1 - alpha) * self.ref_s[:, :128]`. -/
def blended_ref (alpha : ℚ) (s_pred ref_s : List ℚ) : List ℚ :=
  blend alpha (ref_slice s_pred) (reference_timbre ref_s)

/-- Line 288: `s = beta * s + (1 - beta) * self.ref_s[:, 128:]`. -/
def blended_s (beta : ℚ) (s_pred ref_s : List ℚ) : List ℚ :=
  blend beta (s_slice s_pred) (reference_prosody ref_s)

/-- Modelled from the spec's words for comparison (claim C2's wiring): the alpha
(timbre) blend allegedly takes the LAST 128 dimensions of the diffusion sample.
This is NOT the code's wiring; it is the claimed one, kept for refutation. -/
def blended_ref_as_claimed (alpha : ℚ) (s_pred ref_s : List ℚ) : List ℚ :=
  blend alpha (s_pred.drop 128) (reference_timbre ref_s)

/-! #### Helper lemmas about `blend` -/

theorem blend_length (c : ℚ) (xs ys : List ℚ) :
    (blend c xs ys).length = min xs.length ys.length := by
  simp [blend]

theorem blend_getD (c : ℚ) :
    ∀ (xs ys : List ℚ) (i : ℕ), i < xs.length → i < ys.length →
      (blend c xs ys).getD i 0 = c * xs.getD i 0 + (1 - c) * ys.getD i 0 := by
  intro xs
  induction xs with
  | nil => intro ys i h _; exact absurd h (by simp)
  | cons x xs ih =>
    intro ys i hx hy
    cases ys with
    | nil => exact absurd hy (by simp)
    | cons y ys =>
      cases i with
      | zero => simp [blend, List.getD]
      | succ n =>
        have hx' : n < xs.length := by simpa using hx
        have hy' : n < ys.length := by simpa using hy
        simpa [blend, List.getD] using ih ys n hx' hy'

theorem blend_zero : ∀ (xs ys : List ℚ), xs.length = ys.length → blend 0 xs ys = ys := by
  intro xs
  induction xs with
  | nil => intro ys h; cases ys with
    | nil => rfl
    | cons y ys => exact absurd h (by simp)
  | cons x xs ih =>
    intro ys h
    cases ys with
    | nil => exact absurd h (by simp)
    | cons y ys =>
      have h' : xs.length = ys.length := by simpa using h
      simp [blend] at ih ⊢
      exact ih ys h'

theorem blend_one : ∀ (xs ys : List ℚ), xs.length = ys.length → blend 1 xs ys = xs := by
  intro xs
  induction xs with
  | nil => intro ys _; rfl
  | cons x xs ih =>
    intro ys h
    cases ys with
    | nil => exact absurd h (by simp)
    | cons y ys =>
      have h' : xs.length = ys.length := by simpa using h
      simp [blend] at ih ⊢
      exact ih ys h'

theorem getD_take_of_lt {α : Type} {d : α} {xs : List α} {n i : ℕ} (h : i < n) :
    (xs.take n).getD i d = xs.getD i d := by
  induction xs generalizing n i with
  | nil => simp
  | cons x xs ih =>
    cases n with
    | zero => exact absurd h (Nat.not_lt_zero i)
    | succ n =>
      cases i with
      | zero => simp [List.getD]
      | succ j => exact ih (Nat.lt_of_succ_lt_succ h)

theorem getD_drop (xs : List ℚ) (n i : ℕ) :
    (xs.drop n).getD i 0 = xs.getD (n + i) 0 := by
  induction xs generalizing n with
  | nil => simp
  | cons x xs ih =>
    cases n with
    | zero => simp
    | succ m =>
      have h : Nat.succ m + i = Nat.succ (m + i) := by omega
      rw [h]
      exact ih m

/-! ### Concrete inputs used as witnesses / counterexamples for the blending claims -/

/-- A concrete 256-dim diffusion sample whose first half is all `1` and whose
second half is all `2`, so the two halves are distinguishable. -/
def sp_c2 : List ℚ := List.replicate 128 1 ++ List.replicate 128 2

/-- A concrete 256-dim reference style row, all zeros. -/
def rs_c2 : List ℚ := List.replicate 256 0

/-- C1: for every `alpha` and `beta` in `[0,1]`, the style-blending step computes
the blended timbre as `alpha * sampled_timbre + (1 - alpha) * reference_timbre`
elementwise (the sampled timbre being the slice of the diffusion sample consumed
by the decoder) and the blended prosody as `beta * sampled_prosody +
(1 - beta) * reference_prosody`; `alpha = 0` yields the pure reference timbre,
`alpha = 1` the pure sampled timbre, and likewise for `beta` and prosody. -/
theorem style_blend_affine (alpha beta : ℚ) (h0a : 0 ≤ alpha) (h1a : alpha ≤ 1)
    (h0b : 0 ≤ beta) (h1b : beta ≤ 1) (s_pred ref_s : List ℚ)
    (hs : s_pred.length = 256) (hr : ref_s.length = 256) :
    (∀ i, i < 128 →
       (blended_ref alpha s_pred ref_s).getD i 0 =
         alpha * (ref_slice s_pred).getD i 0 +
           (1 - alpha) * (reference_timbre ref_s).getD i 0 ∧
       (blended_s beta s_pred ref_s).getD i 0 =
         beta * (s_slice s_pred).getD i 0 +
           (1 - beta) * (reference_prosody ref_s).getD i 0)
    ∧ (alpha = 0 → blended_ref alpha s_pred ref_s = reference_timbre ref_s)
    ∧ (alpha = 1 → blended_ref alpha s_pred ref_s = ref_slice s_pred)
    ∧ (beta = 0 → blended_s beta s_pred ref_s = reference_prosody ref_s)
    ∧ (beta = 1 → blended_s beta s_pred ref_s = s_slice s_pred) := by
  have hrs : (ref_slice s_pred).length = 128 := by simp [ref_slice, hs]
  have hrt : (reference_timbre ref_s).length = 128 := by simp [reference_timbre, hr]
  have hss : (s_slice s_pred).length = 128 := by simp [s_slice, hs]
  have hrp : (reference_prosody ref_s).length = 128 := by simp [reference_prosody, hr]
  refine ⟨fun i hi => ⟨?_, ?_⟩, fun h => ?_, fun h => ?_, fun h => ?_, fun h => ?_⟩
  · exact blend_getD alpha _ _ i (by omega) (by omega)
  · exact blend_getD beta _ _ i (by omega) (by omega)
  · subst h; exact blend_zero _ _ (by omega)
  · subst h; exact blend_one _ _ (by omega)
  · subst h; exact blend_zero _ _ (by omega)
  · subst h; exact blend_one _ _ (by omega)

/-- Witness for `style_blend_affine` at `alpha = 0` on concrete inputs. -/
theorem style_blend_affine_witness :
    blended_ref 0 (List.replicate 256 (2 : ℚ)) (List.replicate 256 (3 : ℚ)) =
      reference_timbre (List.replicate 256 (3 : ℚ)) :=
  (style_blend_affine 0 1 (by norm_num) (by norm_num) (by norm_num) (by norm_num)
    (List.replicate 256 (2 : ℚ)) (List.replicate 256 (3 : ℚ))
    (by rw [List.length_replicate]) (by rw [List.length_replicate])).2.1 rfl

/-- Counterexample to C2 as stated: the claim asserts that the LAST 128
dimensions of the diffusion sample feed the alpha blend against the reference
timbre half, but on a concrete sample whose first half is `1` and second half
is `2`, the alpha blend computed by `inference` (line 284/287: it slices
`s_pred[:, :128]`) yields `1` at coordinate 0 while the claimed wiring would
yield `2`. -/
theorem split_wiring_counterexample :
    (blended_ref 1 sp_c2 rs_c2).getD 0 0 ≠
      (blended_ref_as_claimed 1 sp_c2 rs_c2).getD 0 0 := by
  have hsp : sp_c2.length = 256 := by
    rw [sp_c2, List.length_append, List.length_replicate, List.length_replicate]
  have hrs : rs_c2.length = 256 := by rw [rs_c2, List.length_replicate]
  have e1 : (blended_ref 1 sp_c2 rs_c2).getD 0 0 =
      1 * sp_c2.getD 0 0 + (1 - 1) * rs_c2.getD 0 0 := by
    rw [blended_ref, blend_getD 1 _ _ 0 (by simp [ref_slice, hsp])
        (by simp [reference_timbre, hrs]),
      ref_slice, reference_timbre, getD_take_of_lt (by norm_num),
      getD_take_of_lt (by norm_num)]
  have e2 : (blended_ref_as_claimed 1 sp_c2 rs_c2).getD 0 0 =
      1 * sp_c2.getD (128 + 0) 0 + (1 - 1) * rs_c2.getD 0 0 := by
    rw [blended_ref_as_claimed, blend_getD 1 _ _ 0 (by simp [hsp])
        (by simp [reference_timbre, hrs]),
      reference_timbre, getD_drop, getD_take_of_lt (by norm_num)]
  have v1 : sp_c2.getD 0 0 = 1 := by simp [sp_c2, List.getD]
  have v2 : sp_c2.getD (128 + 0) 0 = 2 := by simp [sp_c2, List.getD]
  have v3 : rs_c2.getD 0 0 = 0 := by simp [rs_c2, List.getD]
  rw [e1, e2, v1, v2, v3]
  norm_num

/-- C2 amended: the 256-dim diffusion sample is split at index 128; the FIRST
128 dimensions (indices `[0:128)`) are the predicted timbre component, fed into
the alpha blend against the reference timbre half `ref_s[:, :128]`, and the
LAST 128 dimensions (indices `[128:256)`) are the predicted prosody component,
fed into the beta blend against the reference prosody half `ref_s[:, 128:]`. -/
theorem split_wiring_amended (alpha beta : ℚ) (s_pred ref_s : List ℚ)
    (hs : s_pred.length = 256) (hr : ref_s.length = 256) :
    (blended_ref alpha s_pred ref_s).length = 128 ∧
    (blended_s beta s_pred ref_s).length = 128 ∧
    (∀ i, i < 128 →
       (blended_ref alpha s_pred ref_s).getD i 0 =
         alpha * s_pred.getD i 0 + (1 - alpha) * ref_s.getD i 0) ∧
    (∀ i, i < 128 →
       (blended_s beta s_pred ref_s).getD i 0 =
         beta * s_pred.getD (128 + i) 0 + (1 - beta) * ref_s.getD (128 + i) 0) := by
  have hrs : (ref_slice s_pred).length = 128 := by simp [ref_slice, hs]
  have hrt : (reference_timbre ref_s).length = 128 := by simp [reference_timbre, hr]
  have hss : (s_slice s_pred).length = 128 := by simp [s_slice, hs]
  have hrp : (reference_prosody ref_s).length = 128 := by simp [reference_prosody, hr]
  refine ⟨?_, ?_, fun i hi => ?_, fun i hi => ?_⟩
  · rw [blended_ref, blend_length]; omega
  · rw [blended_s, blend_length]; omega
  · rw [blended_ref, blend_getD alpha _ _ i (by omega) (by omega),
      ref_slice, reference_timbre, getD_take_of_lt hi, getD_take_of_lt hi]
  · rw [blended_s, blend_getD beta _ _ i (by omega) (by omega),
      s_slice, reference_prosody, getD_drop, getD_drop]

/-- Witness for `split_wiring_amended` on concrete inputs. -/
theorem split_wiring_amended_witness :
    (blended_s (1/2) sp_c2 rs_c2).getD 0 0 =
      1/2 * sp_c2.getD (128 + 0) 0 + (1 - 1/2) * rs_c2.getD (128 + 0) 0 :=
  (split_wiring_amended (1/2) (1/2) sp_c2 rs_c2
    (by rw [sp_c2, List.length_append, List.length_replicate, List.length_replicate])
    (by rw [rs_c2, List.length_replicate])).2.2.2 0 (by norm_num)

/-! ### Hard alignment matrix (`inference`, lines 296–300)

```
pred_aln_trg = torch.zeros(input_lengths, int(pred_dur.sum().item()))
c_frame = 0
for i in range(pred_aln_trg.size(0)):
    pred_aln_trg[i, c_frame:c_frame + int(pred_dur[i].item())] = 1
    c_frame += int(pred_dur[i].item())
```
Rows are `List Bool` of length `pred_dur.sum`; `true` stands for a written `1`. -/

/-- A zero row of length `width` with ones written on the slice `[a, b)` —
the torch assignment `pred_aln_trg[i, a:b] = 1` applied to a zero row. -/
def setRow (width a b : ℕ) : List Bool :=
  (List.range width).map (fun f => decide (a ≤ f) && decide (f < b))

/-- The loop of lines 297–300: with the frame cursor currently at `c`, the row
for duration `d` receives ones on `[c, c + d)` and the cursor advances to `c + d`. -/
def alnRows (width : ℕ) : List ℕ → ℕ → List (List Bool)
  | [], _ => []
  | d :: ds, c => setRow width c (c + d) :: alnRows width ds (c + d)

/-- `pred_aln_trg` (lines 296–300): the `[token_count, sum pred_dur]` hard
alignment matrix built by sequential placement starting at cursor `0`. -/
def pred_aln_trg (pred_dur : List ℕ) : List (List Bool) :=
  alnRows pred_dur.sum pred_dur 0

/-- The frame cursor sitting before token `i`: the sum of the first `i` durations. -/
def c_frame (pred_dur : List ℕ) (i : ℕ) : ℕ := (pred_dur.take i).sum

/-! #### Helper lemmas about the alignment matrix -/

theorem setRow_length (w a b : ℕ) : (setRow w a b).length = w := by
  simp [setRow]

theorem setRow_getD_lt {w f : ℕ} (a b : ℕ) (h : f < w) :
    (setRow w a b).getD f false = (decide (a ≤ f) && decide (f < b)) := by
  have hf : f < (setRow w a b).length := by rw [setRow_length]; exact h
  rw [List.getD_eq_getElem _ _ hf]
  simp [setRow]

theorem setRow_getD_ge {w f : ℕ} (a b : ℕ) (h : w ≤ f) :
    (setRow w a b).getD f false = false := by
  apply List.getD_eq_default
  rw [setRow_length]; exact h

theorem alnRows_length (w : ℕ) : ∀ (ds : List ℕ) (c : ℕ), (alnRows w ds c).length = ds.length := by
  intro ds
  induction ds with
  | nil => intro c; rfl
  | cons d ds ih => intro c; simp [alnRows, ih]

theorem alnRows_getD (w : ℕ) :
    ∀ (ds : List ℕ) (c i : ℕ), i < ds.length →
      (alnRows w ds c).getD i [] =
        setRow w (c + (ds.take i).sum) (c + (ds.take i).sum + ds.getD i 0) := by
  intro ds
  induction ds with
  | nil => intro c i h; exact absurd h (by simp)
  | cons d ds ih =>
    intro c i h
    cases i with
    | zero => simp [alnRows, List.getD]
    | succ j =>
      have hj : j < ds.length := by simpa using h
      have e : (alnRows w (d :: ds) c).getD (j + 1) [] = (alnRows w ds (c + d)).getD j [] := rfl
      have h1 : ((d :: ds).take (j + 1)).sum = d + (ds.take j).sum := by
        rw [List.take_succ_cons, List.sum_cons]
      have h2 : (d :: ds).getD (j + 1) 0 = ds.getD j 0 := rfl
      rw [e, ih (c + d) j hj, h1, h2]
      congr 1 <;> omega

theorem c_frame_add_le : ∀ (ds : List ℕ) (i : ℕ), i < ds.length →
    c_frame ds i + ds.getD i 0 ≤ ds.sum := by
  intro ds
  induction ds with
  | nil => intro i h; exact absurd h (by simp)
  | cons d ds ih =>
    intro i h
    cases i with
    | zero => simp [c_frame]
    | succ j =>
      have hj : j < ds.length := by simpa using h
      have e := ih j hj
      have h1 : c_frame (d :: ds) (j + 1) = d + c_frame ds j := by
        rw [c_frame, List.take_succ_cons, List.sum_cons, c_frame]
      have h2 : (d :: ds).getD (j + 1) 0 = ds.getD j 0 := rfl
      rw [h1, h2, List.sum_cons]
      omega

theorem cover_exists_unique : ∀ (ds : List ℕ) (f : ℕ), f < ds.sum →
    ∃! i, i < ds.length ∧ c_frame ds i ≤ f ∧ f < c_frame ds i + ds.getD i 0 := by
  intro ds
  induction ds with
  | nil => intro f hf; exact absurd hf (by simp)
  | cons d ds ih =>
    intro f hf
    have hcf : ∀ k, c_frame (d :: ds) (k + 1) = d + c_frame ds k := by
      intro k
      rw [c_frame, List.take_succ_cons, List.sum_cons, c_frame]
    have hc0 : c_frame (d :: ds) 0 = 0 := rfl
    have hg0 : (d :: ds).getD 0 0 = d := rfl
    have hgs : ∀ k, (d :: ds).getD (k + 1) 0 = ds.getD k 0 := fun _ => rfl
    by_cases hfd : f < d
    · refine ⟨0, ⟨by simp, by rw [hc0]; omega, by rw [hc0, hg0]; omega⟩, ?_⟩
      rintro j ⟨hj, hj1, hj2⟩
      cases j with
      | zero => rfl
      | succ k =>
        exfalso
        rw [hcf k] at hj1
        omega
    · have hf' : f - d < ds.sum := by
        rw [List.sum_cons] at hf; omega
      obtain ⟨j, ⟨hj, hj1, hj2⟩, huniq⟩ := ih (f - d) hf'
      refine ⟨j + 1, ⟨by simpa using Nat.succ_lt_succ hj,
        by rw [hcf j]; omega, by rw [hcf j, hgs j]; omega⟩, ?_⟩
      rintro k ⟨hk, hk1, hk2⟩
      cases k with
      | zero =>
        exfalso
        rw [hc0, hg0] at hk2
        omega
      | succ m =>
        have hm : m < ds.length := by simpa using hk
        rw [hcf m] at hk1
        rw [hcf m, hgs m] at hk2
        have : m = j := huniq m ⟨hm, by omega, by omega⟩
        omega

theorem alnRows_mem_length (w : ℕ) :
    ∀ (ds : List ℕ) (c : ℕ) (row : List Bool), row ∈ alnRows w ds c → row.length = w := by
  intro ds
  induction ds with
  | nil => intro c row h; exact absurd h (by simp [alnRows])
  | cons d ds ih =>
    intro c row h
    rw [alnRows, List.mem_cons] at h
    rcases h with h | h
    · rw [h, setRow_length]
    · exact ih (c + d) row h

/-- C3: for every per-token duration vector of positive integers, the alignment
matrix built in `inference` has one row per token and `sum dur` columns; the
entries of row `i` are exactly the frames of `[c_frame i, c_frame i + dur i)`
(so each row's ones are contiguous and rows do not overlap); every frame in
`[0, sum dur)` is covered by exactly one token; and for durations `[2, 3, 1]`
tokens 0, 1, 2 occupy frames `[0,2)`, `[2,5)`, `[5,6)` respectively. -/
theorem alignment_matrix_spec (dur : List ℕ) (hpos : ∀ d ∈ dur, 0 < d) :
    (pred_aln_trg dur).length = dur.length
    ∧ (∀ row ∈ pred_aln_trg dur, row.length = dur.sum)
    ∧ (∀ i, i < dur.length → ∀ f,
        (((pred_aln_trg dur).getD i []).getD f false = true ↔
          c_frame dur i ≤ f ∧ f < c_frame dur i + dur.getD i 0))
    ∧ (∀ f, f < dur.sum →
        ∃! i, i < dur.length ∧ ((pred_aln_trg dur).getD i []).getD f false = true)
    ∧ pred_aln_trg [2, 3, 1] =
        [[true, true, false, false, false, false],
         [false, false, true, true, true, false],
         [false, false, false, false, false, true]] := by
  have hchar : ∀ i, i < dur.length → ∀ f,
      (((pred_aln_trg dur).getD i []).getD f false = true ↔
        c_frame dur i ≤ f ∧ f < c_frame dur i + dur.getD i 0) := by
    intro i hi f
    rw [pred_aln_trg, alnRows_getD dur.sum dur 0 i hi]
    have hcf : (0 : ℕ) + (dur.take i).sum = c_frame dur i := by
      rw [Nat.zero_add]; rfl
    rw [hcf]
    by_cases hfw : f < dur.sum
    · rw [setRow_getD_lt _ _ hfw]
      simp
    · rw [setRow_getD_ge _ _ (by omega)]
      have hle := c_frame_add_le dur i hi
      constructor
      · intro h; exact absurd h (by simp)
      · intro ⟨h1, h2⟩; omega
  refine ⟨?_, ?_, hchar, ?_, ?_⟩
  · rw [pred_aln_trg, alnRows_length]
  · intro row h
    exact alnRows_mem_length dur.sum dur 0 row h
  · intro f hf
    obtain ⟨j, ⟨hj, hj1, hj2⟩, huniq⟩ := cover_exists_unique dur f hf
    refine ⟨j, ⟨hj, (hchar j hj f).mpr ⟨hj1, hj2⟩⟩, ?_⟩
    rintro k ⟨hk, hke⟩
    obtain ⟨h1, h2⟩ := (hchar k hk f).mp hke
    exact huniq k ⟨hk, h1, h2⟩
  · rfl

/-- Witness for `alignment_matrix_spec` at the concrete durations `[2, 3, 1]`. -/
theorem alignment_matrix_spec_witness :
    pred_aln_trg [2, 3, 1] =
      [[true, true, false, false, false, false],
       [false, false, true, true, true, false],
       [false, false, false, false, false, true]] :=
  (alignment_matrix_spec [2, 3, 1] (by decide)).2.2.2.2

/-! ### Waveform trimming (`inference`, lines 321–323) -/

/-- Lines 321–323: `if waveform.shape[-1] > 50: waveform = waveform[..., :-50]`.
Dropping the last 50 samples of a list of length `n > 50` is taking the first
`n - 50`. -/
def trim_waveform (waveform : List ℚ) : List ℚ :=
  if waveform.length > 50 then waveform.take (waveform.length - 50) else waveform

/-- Lines 318–324 of `inference`, abstracted over the decoder output `decoded`
(the float samples of `out.squeeze().cpu().numpy()`): the waveform is trimmed
and returned unconditionally.  `Option` models the Python reference that
`synthesize` later compares with `None`; the code never produces `none`. -/
def inference_result (decoded : List ℚ) : Option (List ℚ) :=
  some (trim_waveform decoded)

/-! ### PCM conversion and `synthesize` (lines 103–120) -/

/-- C-style float truncation toward zero, the conversion
`numpy.ndarray.astype(np.int16)` applies to each in-range value. -/
def f_trunc (x : ℚ) : ℤ := if 0 ≤ x then ⌊x⌋ else ⌈x⌉

/-- Reinterpretation of an integer in the signed 16-bit range performed by
`astype(np.int16)` (two's-complement wrap-around). -/
def to_int16 (t : ℤ) : ℤ := (t + 32768) % 65536 - 32768

/-- The two little-endian bytes `tobytes()` emits for one int16 sample. -/
def int16_le_bytes (t : ℤ) : List ℕ :=
  [((t % 65536).toNat) % 256, ((t % 65536).toNat) / 256]

/-- Line 116, per sample: one sample's bytes within
`(audio_waveform * 32767).astype(np.int16).tobytes()`. -/
def encode_sample (x : ℚ) : List ℕ :=
  int16_le_bytes (to_int16 (f_trunc (x * 32767)))

/-- Line 116: the full PCM byte string of the waveform. -/
def pcm_bytes (waveform : List ℚ) : List ℕ :=
  (waveform.map encode_sample).flatten

/-- Lines 110–120: `synthesize` checks the waveform produced by `inference`
against `None`; when present it enqueues the PCM bytes (`self.queue.put`) and
returns `True`, otherwise it returns `False` and enqueues nothing. -/
def synthesize (audio_waveform : Option (List ℚ)) (queue : List (List ℕ)) :
    Bool × List (List ℕ) :=
  match audio_waveform with
  | some w => (true, queue ++ [pcm_bytes w])
  | none => (false, queue)

/-! #### Helper lemmas for the PCM byte string -/

theorem encode_sample_length (x : ℚ) : (encode_sample x).length = 2 := rfl

theorem pcm_bytes_length : ∀ (w : List ℚ), (pcm_bytes w).length = 2 * w.length := by
  intro w
  induction w with
  | nil => rfl
  | cons x xs ih =>
    have e : pcm_bytes (x :: xs) = encode_sample x ++ pcm_bytes xs := rfl
    rw [e, List.length_append, encode_sample_length, ih, List.length_cons]
    omega

theorem pcm_bytes_getD : ∀ (w : List ℚ) (i : ℕ), i < w.length →
    (pcm_bytes w).getD (2 * i) 0 = (encode_sample (w.getD i 0)).getD 0 0
    ∧ (pcm_bytes w).getD (2 * i + 1) 0 = (encode_sample (w.getD i 0)).getD 1 0 := by
  intro w
  induction w with
  | nil => intro i h; exact absurd h (by simp)
  | cons x xs ih =>
    intro i h
    cases i with
    | zero => exact ⟨rfl, rfl⟩
    | succ j =>
      have hj : j < xs.length := by simpa using h
      have e := ih j hj
      have h2 : 2 * (j + 1) = Nat.succ (Nat.succ (2 * j)) := by omega
      have h3 : 2 * (j + 1) + 1 = Nat.succ (Nat.succ (2 * j + 1)) := by omega
      exact ⟨by rw [h2]; exact e.1, by rw [h3]; exact e.2⟩

/-- C5: a waveform of `n > 50` samples is trimmed to exactly its first `n - 50`
samples; a waveform of at most 50 samples (including exactly 50) is returned
unmodified. -/
theorem trim_tail_50 (w : List ℚ) :
    (w.length > 50 →
       trim_waveform w = w.take (w.length - 50)
       ∧ (trim_waveform w).length = w.length - 50)
    ∧ (w.length ≤ 50 → trim_waveform w = w) := by
  constructor
  · intro h
    rw [trim_waveform, if_pos h]
    exact ⟨rfl, by rw [List.length_take]; omega⟩
  · intro h
    rw [trim_waveform, if_neg (by omega)]

/-- Witness for `trim_tail_50` at lengths 51 and 50. -/
theorem trim_tail_50_witness :
    trim_waveform (List.replicate 51 (0 : ℚ)) =
      (List.replicate 51 (0 : ℚ)).take ((List.replicate 51 (0 : ℚ)).length - 50)
    ∧ trim_waveform (List.replicate 50 (0 : ℚ)) = List.replicate 50 (0 : ℚ) :=
  ⟨((trim_tail_50 (List.replicate 51 (0 : ℚ))).1
      (by rw [List.length_replicate]; norm_num)).1,
   (trim_tail_50 (List.replicate 50 (0 : ℚ))).2
      (by rw [List.length_replicate])⟩

/-- C9: for every non-empty waveform of `n` samples, the PCM conversion of
`synthesize` yields exactly `2 * n` bytes, sample `i` occupying bytes `2i`
(low byte) and `2i + 1` (high byte) of its 16-bit little-endian encoding
(the sample scaled by 32767, truncated, and wrapped to int16). -/
theorem pcm_conversion_spec (w : List ℚ) (hw : w ≠ []) :
    (pcm_bytes w).length = 2 * w.length
    ∧ (∀ i, i < w.length →
        (pcm_bytes w).getD (2 * i) 0 = (encode_sample (w.getD i 0)).getD 0 0
        ∧ (pcm_bytes w).getD (2 * i + 1) 0 = (encode_sample (w.getD i 0)).getD 1 0)
    ∧ (∀ x : ℚ, (encode_sample x).length = 2) := by
  exact ⟨pcm_bytes_length w, fun i hi => pcm_bytes_getD w i hi, encode_sample_length⟩

/-- Witness for `pcm_conversion_spec` on a concrete two-sample waveform. -/
theorem pcm_conversion_spec_witness :
    (pcm_bytes [(1 : ℚ)/2, -(1 : ℚ)/4]).length = 2 * ([(1 : ℚ)/2, -(1 : ℚ)/4]).length :=
  (pcm_conversion_spec [(1 : ℚ)/2, -(1 : ℚ)/4] (by simp)).1

/-- C4: `synthesize` returns `true` iff a waveform was produced by `inference`,
in which case exactly one PCM byte chunk is appended to the output queue; when
the waveform is absent it returns `false` and pushes nothing, so each call
enqueues zero or one chunk. -/
theorem synthesize_spec (w : Option (List ℚ)) (q : List (List ℕ)) :
    ((synthesize w q).1 = true ↔ ∃ v, w = some v)
    ∧ (∀ v, w = some v → (synthesize w q).2 = q ++ [pcm_bytes v])
    ∧ (w = none → (synthesize w q).1 = false ∧ (synthesize w q).2 = q)
    ∧ (synthesize w q).2.length = q.length + (if (synthesize w q).1 then 1 else 0) := by
  cases w with
  | none => simp [synthesize]
  | some v =>
    refine ⟨by simp [synthesize], ?_, by simp [synthesize], by simp [synthesize]⟩
    intro v' hv
    have : v = v' := by injection hv
    rw [this]
    simp [synthesize]

/-- Witness for `synthesize_spec`: a present waveform is enqueued as one chunk. -/
theorem synthesize_spec_witness :
    (synthesize (some [(1 : ℚ)]) []).2 = [] ++ [pcm_bytes [(1 : ℚ)]] :=
  (synthesize_spec (some [(1 : ℚ)]) []).2.1 [(1 : ℚ)] rfl

/-- C10: `inference` unconditionally converts the decoder output to an array and
returns it (possibly trimmed), never `None`; hence the `false` branch of
`synthesize` is unreachable and every normal call returns `true` and enqueues
exactly one PCM chunk. -/
theorem inference_never_none (decoded : List ℚ) (q : List (List ℕ)) :
    inference_result decoded ≠ none
    ∧ (synthesize (inference_result decoded) q).1 = true
    ∧ (synthesize (inference_result decoded) q).2 =
        q ++ [pcm_bytes (trim_waveform decoded)]
    ∧ (synthesize (inference_result decoded) q).2.length = q.length + 1 := by
  refine ⟨by simp [inference_result], rfl, rfl, by simp [synthesize, inference_result]⟩

/-! ### Checkpoint key fallback (`load_model`, lines 182–191)

```
try:
    self.model[key].load_state_dict(params[key])
except:
    state_dict = params[key]
    new_state_dict = OrderedDict()
    for k, v in state_dict.items():
        name = k[7:]  # remove `module.`
        new_state_dict[name] = v
    self.model[key].load_state_dict(new_state_dict, strict=False)
```
Keys are modelled as lists of characters (Python strings), weights as `ℚ`. -/

/-- Lines 186–190: the rebuilt state dict, every key with its first 7 characters
removed (`k[7:]`). -/
def new_state_dict (state_dict : List (List Char × ℚ)) : List (List Char × ℚ) :=
  state_dict.map (fun kv => (kv.1.drop 7, kv.2))

/-- Line 191: the retried call `load_state_dict(new_state_dict, strict=False)`,
recorded as the argument pair (key-stripped dict, strictness flag). -/
def retry_load (state_dict : List (List Char × ℚ)) : List (List Char × ℚ) × Bool :=
  (new_state_dict state_dict, false)

/-- C6: when every key of the failed sub-model's weight dictionary carries the
same 7-character wrapper marker, the retried load receives a state dict whose
keys (and values) are identical to the unwrapped originals, and the retry is
non-strict (`strict=False`, missing keys tolerated). -/
theorem checkpoint_fallback (p : List Char) (hp : p.length = 7)
    (orig : List (List Char × ℚ)) :
    (retry_load (orig.map (fun kv => (p ++ kv.1, kv.2)))).1 = orig
    ∧ (retry_load (orig.map (fun kv => (p ++ kv.1, kv.2)))).2 = false := by
  have hdrop : ∀ (k : List Char), (p ++ k).drop 7 = k := by
    intro k
    have h := List.drop_left p k
    rw [hp] at h
    exact h
  constructor
  · show new_state_dict (orig.map (fun kv => (p ++ kv.1, kv.2))) = orig
    rw [new_state_dict, List.map_map]
    have hfun : ((fun kv : List Char × ℚ => (kv.1.drop 7, kv.2)) ∘
        (fun kv : List Char × ℚ => (p ++ kv.1, kv.2))) = id := by
      funext kv
      simp [hdrop kv.1]
    rw [hfun, List.map_id]
  · rfl

/-- Witness for `checkpoint_fallback` with the actual 7-character marker
`module.` and a one-entry dict. -/
theorem checkpoint_fallback_witness :
    (retry_load ([(['w'], (1 : ℚ))].map
        (fun kv => (['m', 'o', 'd', 'u', 'l', 'e', '.'] ++ kv.1, kv.2)))).1 =
      [(['w'], (1 : ℚ))] :=
  (checkpoint_fallback ['m', 'o', 'd', 'u', 'l', 'e', '.'] (by decide)
    [(['w'], (1 : ℚ))]).1

/-! ### HiFi-GAN one-frame right shift (`inference`, lines 303–307 and 312–316)

The same block appears twice, once for the prosody-encoder alignment `en` and
once for the text-encoder alignment `asr`:
```
if self.model_params.decoder.type == "hifigan":
    asr_new = torch.zeros_like(en)
    asr_new[:, :, 0] = en[:, :, 0]
    asr_new[:, :, 1:] = en[:, :, 0:-1]
    en = asr_new
```
The frame axis is the last tensor axis; a sequence is a list of frames. -/

/-- The shifted copy: frame 0 is kept and frames `1:` receive frames `0:-1`. -/
def shift_frames (en : List (List ℚ)) : List (List ℚ) :=
  match en with
  | [] => []
  | f0 :: _ => f0 :: en.dropLast

/-- The conditional of lines 303/312: shift exactly when the configured decoder
type is `"hifigan"`. -/
def apply_decoder_shift (decoder_type : String) (en : List (List ℚ)) :
    List (List ℚ) :=
  if decoder_type = "hifigan" then shift_frames en else en

/-- C7: when the decoder type is `"hifigan"`, the aligned feature sequence is
right-shifted by one frame before decoding — same frame count, output frame 0
equal to input frame 0, and output frame `i` equal to input frame `i - 1` for
`i ≥ 1`; for any other decoder type the sequence is passed through unshifted.
The identical transform is applied at both sites (`en`, lines 303–307, and
`asr`, lines 312–316), both instances of this statement. -/
theorem decoder_shift_spec (dt : String) (en : List (List ℚ)) :
    (dt = "hifigan" →
       (apply_decoder_shift dt en).length = en.length
       ∧ (0 < en.length → (apply_decoder_shift dt en).getD 0 [] = en.getD 0 [])
       ∧ (∀ i, 1 ≤ i → i < en.length →
            (apply_decoder_shift dt en).getD i [] = en.getD (i - 1) []))
    ∧ (dt ≠ "hifigan" → apply_decoder_shift dt en = en) := by
  constructor
  · intro h
    rw [apply_decoder_shift, if_pos h]
    cases en with
    | nil =>
      refine ⟨rfl, ?_, ?_⟩
      · intro h0; exact absurd h0 (by simp)
      · intro i h1 hi; exact absurd hi (by simp)
    | cons f0 rest =>
      refine ⟨?_, fun _ => rfl, ?_⟩
      · show (f0 :: (f0 :: rest).dropLast).length = (f0 :: rest).length
        rw [List.length_cons, List.length_cons, List.length_dropLast,
          List.length_cons]
        omega
      · intro i h1 hi
        cases i with
        | zero => exact absurd h1 (by omega)
        | succ j =>
          have hj : j < rest.length := by
            rw [List.length_cons] at hi; omega
          have e1 : (shift_frames (f0 :: rest)).getD (j + 1) [] =
              ((f0 :: rest).dropLast).getD j [] := rfl
          have e2 : (j + 1 : ℕ) - 1 = j := by omega
          rw [e1, e2, List.dropLast_eq_take]
          exact getD_take_of_lt (by rw [List.length_cons]; omega)
  · intro h
    rw [apply_decoder_shift, if_neg h]

/-- Witness for `decoder_shift_spec` on a concrete three-frame sequence. -/
theorem decoder_shift_spec_witness :
    (apply_decoder_shift "hifigan" [[(1 : ℚ)], [(2 : ℚ)], [(3 : ℚ)]]).getD 2 [] =
      [[(1 : ℚ)], [(2 : ℚ)], [(3 : ℚ)]].getD (2 - 1) [] :=
  ((decoder_shift_spec "hifigan" [[(1 : ℚ)], [(2 : ℚ)], [(3 : ℚ)]]).1 rfl).2.2 2
    (by norm_num) (by simp)

/-! ### Duration prediction (`inference`, lines 292–294)

```
duration = self.model.predictor.duration_proj(x)
duration = torch.sigmoid(duration).sum(axis=-1)
pred_dur = torch.round(duration.squeeze()).clamp(min=1)
```
The projected duration scores are a matrix with one row of real scores per
token; the feature axis is the last axis. -/

/-- `torch.sigmoid` (line 293): `1 / (1 + exp (-x))`. -/
noncomputable def sigmoid (x : ℝ) : ℝ := 1 / (1 + Real.exp (-x))

/-- `torch.round`: round to nearest integer, ties to even (torch semantics). -/
noncomputable def torch_round (x : ℝ) : ℤ :=
  if Int.fract x = 1/2 then (if 2 ∣ ⌊x⌋ then ⌊x⌋ else ⌊x⌋ + 1) else round x

/-- Lines 293–294 per token: sigmoid, sum over the feature axis, round, and
clamp to a minimum of 1 (`.clamp(min=1)` is `max 1`). -/
noncomputable def pred_dur (scores : List (List ℝ)) : List ℤ :=
  scores.map (fun row => max 1 (torch_round ((row.map sigmoid).sum)))

theorem int_length_le_sum_of_one_le :
    ∀ (l : List ℤ), (∀ x ∈ l, 1 ≤ x) → (l.length : ℤ) ≤ l.sum := by
  intro l
  induction l with
  | nil => simp
  | cons x xs ih =>
    intro h
    have hx : 1 ≤ x := h x (by simp)
    have hxs : (xs.length : ℤ) ≤ xs.sum := ih (fun y hy => h y (by simp [hy]))
    rw [List.sum_cons, List.length_cons]
    push_cast
    omega

/-- C8: per-token durations are the projected scores passed through a sigmoid,
summed across the feature axis, rounded to the nearest integer and clamped to a
minimum of 1, so there is one duration per token, every duration is at least 1
frame, and the total frame count is at least the token count. -/
theorem pred_dur_spec (scores : List (List ℝ)) :
    (pred_dur scores).length = scores.length
    ∧ (∀ d ∈ pred_dur scores, 1 ≤ d)
    ∧ (scores.length : ℤ) ≤ (pred_dur scores).sum := by
  have hone : ∀ d ∈ pred_dur scores, 1 ≤ d := by
    intro d hd
    rw [pred_dur, List.mem_map] at hd
    obtain ⟨row, _, hrow⟩ := hd
    rw [← hrow]
    exact le_max_left 1 _
  refine ⟨by rw [pred_dur, List.length_map], hone, ?_⟩
  have h := int_length_le_sum_of_one_le (pred_dur scores) hone
  rw [pred_dur, List.length_map] at h
  rw [pred_dur]
  exact h
